import Mathlib

/-!
Shallow embedding of `src/pueue/daemon/queue.py` (class `Queue`).

The Python store `self.queue` is a `dict` from integer keys to task records;
records are string-keyed dicts.  We embed records as a structure whose fields
are the keys that `add_new` always writes; the `depd` field is an
`Option (List Int)` where `none` models a record dict that lacks the
`'depd'` key entirely (e.g. loaded from an old snapshot) and
`some ds` models `record['depd'] = ds` (the sentinel "no dependency" is the
literal Python list `[-1]`).  The dict itself is embedded as an association
list `List (Int × Record)`; `setKey` replaces the first binding of a present
key in place (Python dict update keeps insertion position) and appends a
fresh key at the end (Python dict insertion order), `eraseKey` removes the
binding, `lookup` finds it.

The on-disk snapshot (`os.path.join(config_dir, 'queue')` written with
`pickle`) is embedded as `Option FileContent`: `none` is an absent file,
`FileContent.valid q` a file that unpickles to the store `q`, and
`FileContent.corrupt` a file on which `pickle.load` raises.  The Python
object state `(self.queue, self.next_key)` together with the snapshot file
forms the `Queue` structure below; methods that call `self.write()` update
the `file` component.
-/

namespace Pueue

/-- One task record: the fields written by `Queue.add_new` plus the optional
`depd` dependency list (`none` = the dict has no `'depd'` key). -/
structure Record where
  command : String
  path : String
  status : String
  returncode : String
  stdout : String
  stderr : String
  start : String
  «end» : String
  depd : Option (List Int)
deriving DecidableEq

/-- Content of the snapshot file: either it unpickles to a store, or
`pickle.load` on it raises (corrupt bytes, empty file, ...). -/
inductive FileContent where
  | valid (q : List (Int × Record))
  | corrupt
deriving DecidableEq

/-- State of a `Queue` object together with its snapshot file:
`queue` is `self.queue`, `next_key` is `self.next_key`, and `file` is the
content of the file at `os.path.join(self.config_dir, 'queue')`
(`none` when the file does not exist). -/
structure Queue where
  queue : List (Int × Record)
  next_key : Int
  file : Option FileContent
deriving DecidableEq

/-- Dict lookup `self.queue[key]` / `self.queue.get(key)`: first binding of
the key in the association list. -/
def lookup : List (Int × Record) → Int → Option Record
  | [], _ => none
  | (k, r) :: rest, key => if key = k then some r else lookup rest key

/-- Dict update `self.queue[key] = value`: replace the first binding of a
present key in place, append a fresh key at the end. -/
def setKey : List (Int × Record) → Int → Record → List (Int × Record)
  | [], key, v => [(key, v)]
  | (k, r) :: rest, key, v =>
      if key = k then (key, v) :: rest else (k, r) :: setKey rest key v

/-- Dict deletion `del self.queue[key]`. -/
def eraseKey : List (Int × Record) → Int → List (Int × Record)
  | [], _ => []
  | (k, r) :: rest, key => if key = k then rest else (k, r) :: eraseKey rest key

/-- The key view `self.queue.keys()`. -/
def keysOf (q : List (Int × Record)) : List Int :=
  q.map Prod.fst

/-- Method `Queue.write` in the failure-free case: `pickle.dump(self.queue,
queue_file, -1)` succeeds and the snapshot file now holds the current store.
The in-memory fields are untouched. -/
def Queue.write (s : Queue) : Queue :=
  { s with file := some (.valid s.queue) }

/-- Method `Queue.write` with its failure modes made explicit.
`openFails` models `open(queue_path, 'wb+')` raising (e.g. `PermissionError`
or a missing config directory): the `open` call sits OUTSIDE the
`try`/`except`, so the exception propagates, which we model with
`Except.error`.  `dumpFails` models `pickle.dump` raising INSIDE the `try`:
the handler prints a warning (the returned `Bool`) and the method returns
normally; the file was already truncated by mode `'wb+'` and holds at most a
partial dump, so its content is `corrupt`.  The in-memory store is never
changed. -/
def Queue.write_model (s : Queue) (openFails dumpFails : Bool) :
    Except String (Queue × Bool) :=
  if openFails then
    .error "OSError"
  else if dumpFails then
    .ok ({ s with file := some .corrupt }, true)
  else
    .ok ({ s with file := some (.valid s.queue) }, false)

/-- Python `pickle.load` on the snapshot file content. -/
def pickle_load : FileContent → Except String (List (Int × Record))
  | .valid q => .ok q
  | .corrupt => .error "UnpicklingError"

/-- Result of method `Queue.read`: the store it leaves in `self.queue`, the
snapshot file content afterwards, and whether the corruption warning was
printed. -/
structure ReadResult where
  queue : List (Int × Record)
  file : Option FileContent
  warned : Bool
deriving DecidableEq

/-- Method `Queue.read`: if the file does not exist, `self.queue = {}`;
otherwise `pickle.load` it, and on any exception print the warning, delete
the file (`os.remove`) and set `self.queue = {}`.  The method is total: the
`except Exception` clause stops the deserialization error from propagating. -/
def Queue.read (file : Option FileContent) : ReadResult :=
  match file with
  | none => ⟨[], none, false⟩
  | some content =>
      match pickle_load content with
      | .ok q => ⟨q, some content, false⟩
      | .error _ => ⟨[], none, true⟩

/-- The record-level effect of method `Queue.clean` on one item. -/
def cleanRecord (item : Record) : Record :=
  if item.status ∈ ["paused", "running", "stopping", "killing"] then
    { item with status := "queued", start := "", «end» := "" }
  else
    item

/-- Method `Queue.clean`: demote every `paused`/`running`/`stopping`/
`killing` record to `queued` with cleared `start`/`end`; it mutates items in
place and does not call `self.write()`. -/
def Queue.clean (s : Queue) : Queue :=
  { s with queue := s.queue.map fun kr => (kr.1, cleanRecord kr.2) }

/-- Python `max(self.queue.keys())` for a nonempty store (head as the seed of
the running maximum). -/
def maxKey : List (Int × Record) → Int
  | [] => 0
  | (k, _) :: rest => rest.foldl (fun m kr => max m kr.1) k

/-- Method `Queue.__init__` (minus storing `config_dir`): `self.read()`, then
`self.clean()`, then `self.next_key = max(self.queue.keys()) + 1` when the
store is nonempty, else `0`. -/
def Queue.init (file : Option FileContent) : Queue :=
  let rr := Queue.read file
  let q := rr.queue.map fun kr => (kr.1, cleanRecord kr.2)
  { queue := q,
    next_key := if q = [] then 0 else maxKey q + 1,
    file := rr.file }

/-- Method `Queue.reset`: `self.queue = {}`, `self.next_key = 0`,
`self.write()`. -/
def Queue.reset (s : Queue) : Queue :=
  Queue.write { s with queue := [], next_key := 0 }

/-- Method `Queue.clear`: delete every record whose status is `done` or
`failed`, then `self.write()`. -/
def Queue.clear (s : Queue) : Queue :=
  Queue.write
    { s with queue :=
        s.queue.filter fun kr =>
          !(kr.2.status == "done" || kr.2.status == "failed") }

/-- Body of the `for d_key in self.queue[key]['depd']` loop in `_depd_ok`:
a dependency key still present in the store must have status `done`; an
absent one is skipped by the `if d_key in self.queue.keys()` guard, leaving
`ok` unchanged. -/
def depSatisfied (queue : List (Int × Record)) (d_key : Int) : Bool :=
  match lookup queue d_key with
  | none => true
  | some dep => dep.status == "done"

/-- Test applied by `_depd_ok` to the value of the `'depd'` key of a record
dict: `none` is a dict with no `'depd'` key (`'depd' not in ...keys()`),
`some [-1]` is the sentinel, any other list is checked entry by entry with
`depSatisfied`. -/
def depd_field_ok (queue : List (Int × Record)) : Option (List Int) → Bool
  | none => true
  | some ds => if ds = [-1] then true else ds.all (depSatisfied queue)

/-- Inner function `_depd_ok` of method `Queue.next`: a (present) key passes
if its record has no `'depd'` key at all, or `depd == [-1]` (the sentinel),
or every dependency key that is still present in the store has status
`done`. -/
def _depd_ok (queue : List (Int × Record)) (key : Int) : Bool :=
  match lookup queue key with
  | none => true
  | some item => depd_field_ok queue item.depd

/-- Status test of the loop in `Queue.next`: `self.queue[key]['status'] ==
'queued'` (`false` on an absent key, which the loop never produces). -/
def statusQueued : Option Record → Bool
  | some item => item.status == "queued"
  | none => false

/-- The per-key test of the loop in `Queue.next`: status `queued` and
`_depd_ok`. -/
def isCandidate (queue : List (Int × Record)) (key : Int) : Bool :=
  statusQueued (lookup queue key) && _depd_ok queue key

/-- The body of the loop in `Queue.next`: keep the running smallest
candidate key. -/
def nextStep (queue : List (Int × Record)) (smallest : Option Int)
    (key : Int) : Option Int :=
  if isCandidate queue key then
    match smallest with
    | none => some key
    | some sm => if key < sm then some key else smallest
  else smallest

/-- Method `Queue.next`: scan `self.queue.keys()` and return the smallest
key whose record has status `queued` and passes `_depd_ok`; `None` when no
key qualifies.  No mutation. -/
def Queue.next (s : Queue) : Option Int :=
  (keysOf s.queue).foldl (nextStep s.queue) none

/-- Default fields written by `Queue.add_new` on top of the `command` and
`path` entries of its argument dict. -/
def newEntry (command path : String) : Record :=
  { command := command, path := path, status := "stashed", returncode := "",
    stdout := "", stderr := "", start := "", «end» := "", depd := some [-1] }

/-- Method `Queue.add_new`: store the argument dict under `self.next_key`,
fill in `status = 'stashed'`, empty `returncode`/`stdout`/`stderr`/`start`/
`end`, `depd = [-1]`, increment `self.next_key`, `self.write()`.  The Python
method has no `return` statement, so its value is `None`: the second
component is that return value. -/
def Queue.add_new (s : Queue) (command path : String) : Queue × Option Int :=
  (Queue.write
    { s with
      queue := setKey s.queue s.next_key (newEntry command path),
      next_key := s.next_key + 1 },
   none)

/-- Method `Queue.remove`: delete the key and `self.write()` when present
(returning `True`), else return `False` without touching anything. -/
def Queue.remove (s : Queue) (key : Int) : Queue × Bool :=
  if (lookup s.queue key).isSome then
    (Queue.write { s with queue := eraseKey s.queue key }, true)
  else
    (s, false)

/-- Method `Queue.restart`: when the key is present with status `failed` or
`done`, build `{'command': ..., 'path': ...}` from it, `self.add_new` that
dict (which also writes), `self.write()` again, and return `True`; otherwise
return `False`. -/
def Queue.restart (s : Queue) (key : Int) : Queue × Bool :=
  match lookup s.queue key with
  | some item =>
      if item.status ∈ ["failed", "done"] then
        (Queue.write (Queue.add_new s item.command item.path).1, true)
      else
        (s, false)
  | none => (s, false)

/-- Method `Queue.switch`: when both keys are present and both statuses are
in `['queued', 'stashed']`, exchange the two records (`tmp =
queue[second].copy(); queue[second] = queue[first].copy(); queue[first] =
tmp`), `self.write()`, return `True`; otherwise return `False` without
touching anything. -/
def Queue.switch (s : Queue) (first second : Int) : Queue × Bool :=
  match lookup s.queue first, lookup s.queue second with
  | some rf, some rs =>
      if rf.status ∈ ["queued", "stashed"] ∧ rs.status ∈ ["queued", "stashed"] then
        (Queue.write
          { s with queue := setKey (setKey s.queue second rf) first rs },
         true)
      else
        (s, false)
  | _, _ => (s, false)

/-! Basic lemmas about the association-list dictionary operations. -/

theorem lookup_setKey_self (q : List (Int × Record)) (key : Int) (v : Record) :
    lookup (setKey q key v) key = some v := by
  induction q with
  | nil => simp [setKey, lookup]
  | cons kr rest ih =>
      obtain ⟨k, r⟩ := kr
      by_cases h : key = k
      · simp [setKey, lookup, h]
      · simp [setKey, lookup, h, ih]

theorem lookup_setKey_ne (q : List (Int × Record)) (key : Int) (v : Record)
    (key' : Int) (h : key' ≠ key) :
    lookup (setKey q key v) key' = lookup q key' := by
  induction q with
  | nil => simp [setKey, lookup, h]
  | cons kr rest ih =>
      obtain ⟨k, r⟩ := kr
      by_cases hk : key = k
      · subst hk
        simp [setKey, lookup, h]
      · by_cases hk' : key' = k
        · simp [setKey, lookup, hk, hk']
        · simp [setKey, lookup, hk, hk', ih]

theorem keysOf_nil : keysOf [] = [] := rfl

theorem keysOf_cons (kr : Int × Record) (rest : List (Int × Record)) :
    keysOf (kr :: rest) = kr.1 :: keysOf rest := rfl

theorem mem_keysOf_of_lookup (q : List (Int × Record)) (key : Int)
    (r : Record) (h : lookup q key = some r) : key ∈ keysOf q := by
  induction q with
  | nil => simp [lookup] at h
  | cons kr rest ih =>
      obtain ⟨k, v⟩ := kr
      by_cases hk : key = k
      · simp [keysOf_cons, hk]
      · simp only [lookup, if_neg hk] at h
        simp only [keysOf_cons, List.mem_cons]
        exact Or.inr (ih h)

theorem lookup_of_mem_keysOf (q : List (Int × Record)) (key : Int) :
    key ∈ keysOf q → ∃ r, lookup q key = some r := by
  induction q with
  | nil => intro h; simp [keysOf_nil] at h
  | cons kr rest ih =>
      obtain ⟨k, v⟩ := kr
      intro h
      by_cases hk : key = k
      · exact ⟨v, by simp [lookup, hk]⟩
      · simp only [keysOf_cons, List.mem_cons] at h
        rcases h with h | h
        · exact absurd h hk
        · obtain ⟨r, hr⟩ := ih h
          exact ⟨r, by simp [lookup, hk, hr]⟩

theorem mem_keysOf_setKey (q : List (Int × Record)) (key : Int) (v : Record)
    (key' : Int) :
    key' ∈ keysOf (setKey q key v) → key' ∈ keysOf q ∨ key' = key := by
  induction q with
  | nil =>
      intro h
      simp only [setKey, keysOf_cons, keysOf_nil, List.mem_cons,
        List.not_mem_nil, or_false] at h
      exact Or.inr h
  | cons kr rest ih =>
      obtain ⟨k, r⟩ := kr
      intro h
      by_cases hk : key = k
      · simp only [setKey, if_pos hk, keysOf_cons, List.mem_cons] at h
        rcases h with h | h
        · exact Or.inr h
        · exact Or.inl (by simp only [keysOf_cons, List.mem_cons]; exact Or.inr h)
      · simp only [setKey, if_neg hk, keysOf_cons, List.mem_cons] at h
        rcases h with h | h
        · exact Or.inl (by simp only [keysOf_cons, List.mem_cons]; exact Or.inl h)
        · rcases ih h with h' | h'
          · exact Or.inl (by simp only [keysOf_cons, List.mem_cons]; exact Or.inr h')
          · exact Or.inr h'

theorem keysOf_setKey_of_mem (q : List (Int × Record)) (key : Int) (v : Record) :
    key ∈ keysOf q → keysOf (setKey q key v) = keysOf q := by
  induction q with
  | nil => intro h; simp [keysOf_nil] at h
  | cons kr rest ih =>
      obtain ⟨k, r⟩ := kr
      intro h
      by_cases hk : key = k
      · simp [setKey, hk, keysOf_cons]
      · simp only [keysOf_cons, List.mem_cons] at h
        rcases h with h | h
        · exact absurd h hk
        · simp only [setKey, if_neg hk, keysOf_cons, ih h]

theorem mem_keysOf_eraseKey (q : List (Int × Record)) (key key' : Int) :
    key' ∈ keysOf (eraseKey q key) → key' ∈ keysOf q := by
  induction q with
  | nil => intro h; simp [eraseKey, keysOf_nil] at h
  | cons kr rest ih =>
      obtain ⟨k, r⟩ := kr
      intro h
      by_cases hk : key = k
      · simp only [eraseKey, if_pos hk] at h
        simp only [keysOf_cons, List.mem_cons]
        exact Or.inr h
      · simp only [eraseKey, if_neg hk, keysOf_cons, List.mem_cons] at h
        simp only [keysOf_cons, List.mem_cons]
        rcases h with h | h
        · exact Or.inl h
        · exact Or.inr (ih h)

theorem lookup_map (q : List (Int × Record)) (f : Record → Record) (key : Int) :
    lookup (q.map fun kr => (kr.1, f kr.2)) key = (lookup q key).map f := by
  induction q with
  | nil => simp [lookup]
  | cons kr rest ih =>
      obtain ⟨k, r⟩ := kr
      by_cases hk : key = k
      · simp [lookup, hk]
      · simp [lookup, hk, ih]

/-! Characterization of the minimum-tracking fold inside `Queue.next`. -/

theorem foldl_nextStep_spec (q : List (Int × Record)) (keys : List Int) :
    ∀ acc : Option Int,
      (keys.foldl (nextStep q) acc = none →
        acc = none ∧ ∀ k ∈ keys, isCandidate q k = false) ∧
      (∀ m, keys.foldl (nextStep q) acc = some m →
        (acc = some m ∨ (m ∈ keys ∧ isCandidate q m = true)) ∧
        (∀ a, acc = some a → m ≤ a) ∧
        (∀ k ∈ keys, isCandidate q k = true → m ≤ k)) := by
  induction keys with
  | nil =>
      intro acc
      refine ⟨fun h => ⟨h, by simp⟩, fun m h => ?_⟩
      simp only [List.foldl_nil] at h
      refine ⟨Or.inl h, fun a ha => ?_, by simp⟩
      rw [h] at ha
      have : m = a := by simpa using ha
      omega
  | cons k ks ih =>
      intro acc
      rw [List.foldl_cons]
      have ihs := ih (nextStep q acc k)
      by_cases hc : isCandidate q k = true
      · constructor
        · intro h
          obtain ⟨hacc, _⟩ := ihs.1 h
          exfalso
          cases acc with
          | none => simp [nextStep, hc] at hacc
          | some sm =>
              by_cases hlt : k < sm <;> simp [nextStep, hc, hlt] at hacc
        · intro m h
          obtain ⟨hdisj, hacc, hks⟩ := ihs.2 m h
          cases acc with
          | none =>
              have hstep : nextStep q none k = some k := by simp [nextStep, hc]
              rw [hstep] at hdisj hacc
              refine ⟨?_, by simp, ?_⟩
              · rcases hdisj with hd | hd
                · have hmk : k = m := by simpa using hd
                  exact Or.inr ⟨by simp [hmk], by rw [← hmk]; exact hc⟩
                · exact Or.inr ⟨List.mem_cons_of_mem k hd.1, hd.2⟩
              · intro j hj hcj
                have hmk : m ≤ k := hacc k rfl
                rcases List.mem_cons.mp hj with hjk | hj'
                · omega
                · exact hks j hj' hcj
          | some sm =>
              by_cases hlt : k < sm
              · have hstep : nextStep q (some sm) k = some k := by
                  simp [nextStep, hc, hlt]
                rw [hstep] at hdisj hacc
                have hmk : m ≤ k := hacc k rfl
                refine ⟨?_, ?_, ?_⟩
                · rcases hdisj with hd | hd
                  · have hkm : k = m := by simpa using hd
                    exact Or.inr ⟨by simp [hkm], by rw [← hkm]; exact hc⟩
                  · exact Or.inr ⟨List.mem_cons_of_mem k hd.1, hd.2⟩
                · intro a ha
                  have hsa : sm = a := by simpa using ha
                  omega
                · intro j hj hcj
                  rcases List.mem_cons.mp hj with hjk | hj'
                  · omega
                  · exact hks j hj' hcj
              · have hstep : nextStep q (some sm) k = some sm := by
                  simp [nextStep, hc, hlt]
                rw [hstep] at hdisj hacc
                have hmsm : m ≤ sm := hacc sm rfl
                refine ⟨?_, ?_, ?_⟩
                · rcases hdisj with hd | hd
                  · exact Or.inl hd
                  · exact Or.inr ⟨List.mem_cons_of_mem k hd.1, hd.2⟩
                · intro a ha
                  have hsa : sm = a := by simpa using ha
                  omega
                · intro j hj hcj
                  rcases List.mem_cons.mp hj with hjk | hj'
                  · omega
                  · exact hks j hj' hcj
      · have hstep : nextStep q acc k = acc := by simp [nextStep, hc]
        rw [hstep]
        have ihs := ih acc
        constructor
        · intro h
          obtain ⟨hacc, hall⟩ := ihs.1 h
          refine ⟨hacc, ?_⟩
          intro j hj
          rcases List.mem_cons.mp hj with hjk | hj'
          · rw [hjk]
            simpa using hc
          · exact hall j hj'
        · intro m h
          obtain ⟨hdisj, hacc, hks⟩ := ihs.2 m h
          refine ⟨?_, hacc, ?_⟩
          · rcases hdisj with hd | hd
            · exact Or.inl hd
            · exact Or.inr ⟨List.mem_cons_of_mem k hd.1, hd.2⟩
          · intro j hj hcj
            rcases List.mem_cons.mp hj with hjk | hj'
            · rw [hjk] at hcj
              exact absurd hcj hc
            · exact hks j hj' hcj

/-! Congruence of `Queue.next` under a store change that preserves presence
and statuses of all keys. -/

theorem foldl_nextStep_congr (q q' : List (Int × Record)) (l : List Int)
    (h : ∀ j, isCandidate q j = isCandidate q' j) :
    ∀ acc, l.foldl (nextStep q) acc = l.foldl (nextStep q') acc := by
  induction l with
  | nil => intro acc; rfl
  | cons k ks ih =>
      intro acc
      rw [List.foldl_cons, List.foldl_cons]
      have hs : nextStep q acc k = nextStep q' acc k := by
        simp [nextStep, h k]
      rw [hs]
      exact ih _

theorem depSatisfied_setKey (q : List (Int × Record)) (key : Int)
    (item v : Record) (hl : lookup q key = some item)
    (hst : v.status = item.status) (d : Int) :
    depSatisfied (setKey q key v) d = depSatisfied q d := by
  by_cases hd : d = key
  · subst hd
    simp [depSatisfied, lookup_setKey_self, hl, hst]
  · simp [depSatisfied, lookup_setKey_ne q key v d hd]

theorem depd_ok_setKey_sentinel (q : List (Int × Record)) (key : Int)
    (item : Record) (hl : lookup q key = some item) (hd : item.depd = none)
    (j : Int) :
    _depd_ok (setKey q key { item with depd := some [-1] }) j
      = _depd_ok q j := by
  have hsat := depSatisfied_setKey q key item { item with depd := some [-1] }
    hl rfl
  by_cases hj : j = key
  · subst hj
    simp [_depd_ok, lookup_setKey_self, hl, hd, depd_field_ok]
  · have hlj : lookup (setKey q key { item with depd := some [-1] }) j
        = lookup q j := lookup_setKey_ne q key _ j hj
    unfold _depd_ok
    rw [hlj]
    cases hlq : lookup q j with
    | none => rfl
    | some r =>
        show depd_field_ok _ r.depd = depd_field_ok q r.depd
        cases hdep : r.depd with
        | none => rfl
        | some ds =>
            by_cases hds : ds = [-1]
            · simp [depd_field_ok, hds]
            · simp only [depd_field_ok, if_neg hds]
              congr 1
              funext d_key
              exact hsat d_key

theorem isCandidate_setKey_sentinel (q : List (Int × Record)) (key : Int)
    (item : Record) (hl : lookup q key = some item) (hd : item.depd = none)
    (j : Int) :
    isCandidate q j
      = isCandidate (setKey q key { item with depd := some [-1] }) j := by
  have hdok := depd_ok_setKey_sentinel q key item hl hd j
  by_cases hj : j = key
  · subst hj
    simp [isCandidate, lookup_setKey_self, hl, hdok, statusQueued]
  · have hlj : lookup (setKey q key { item with depd := some [-1] }) j
        = lookup q j := lookup_setKey_ne q key _ j hj
    simp [isCandidate, hlj, hdok]

/-! Concrete sample stores used by the witnesses. -/

/-- Sample record: a fresh entry with a chosen status and dependency field. -/
def sampleRec (st : String) (dep : Option (List Int)) : Record :=
  { newEntry "echo hi" "/tmp" with status := st, depd := dep }

/-- Two queued tasks, task 1 depending on task 0. -/
def sampleQueue : Queue :=
  ⟨[(0, sampleRec "queued" (some [-1])), (1, sampleRec "queued" (some [0]))],
   2, none⟩

/-- A queued record whose dict has no `depd` key, stored under key 3. -/
def sampleQueueNoDepd : Queue :=
  ⟨[(3, sampleRec "queued" none)], 4, none⟩

/-- C1: for every store, `next()` returns a key of the store whose record
has status `queued` and passes the dependency check (sentinel, missing
field, or every still-present dependency `done`), minimal among all such
candidate keys; it returns `none` exactly when no candidate exists; and it
never returns a key one of whose dependencies is still present with a
status other than `done`. -/
theorem next_returns_smallest_eligible (s : Queue) :
    (∀ key, Queue.next s = some key →
      key ∈ keysOf s.queue ∧
      (∀ item, lookup s.queue key = some item → item.status = "queued") ∧
      _depd_ok s.queue key = true ∧
      (∀ key', key' ∈ keysOf s.queue → isCandidate s.queue key' = true →
        key ≤ key') ∧
      (∀ item ds d dep, lookup s.queue key = some item →
        item.depd = some ds → ds ≠ [-1] → d ∈ ds →
        lookup s.queue d = some dep → dep.status = "done")) ∧
    (Queue.next s = none →
      ∀ key ∈ keysOf s.queue, isCandidate s.queue key = false) := by
  have hspec := foldl_nextStep_spec s.queue (keysOf s.queue) none
  constructor
  · intro key h
    have h' : (keysOf s.queue).foldl (nextStep s.queue) none = some key := h
    obtain ⟨hdisj, _, hmin⟩ := hspec.2 key h'
    have hmc : key ∈ keysOf s.queue ∧ isCandidate s.queue key = true := by
      rcases hdisj with hd | hd
      · exact absurd hd (by simp)
      · exact hd
    obtain ⟨hmem, hc⟩ := hmc
    have hc' := hc
    simp only [isCandidate, Bool.and_eq_true] at hc'
    obtain ⟨hst, hdok⟩ := hc'
    refine ⟨hmem, ?_, hdok, fun key' hk' hck' => hmin key' hk' hck', ?_⟩
    · intro item hitem
      rw [hitem] at hst
      simpa [statusQueued] using hst
    · intro item ds d dep hitem hds hne hdmem hdep
      have hdf : depd_field_ok s.queue item.depd = true := by
        unfold _depd_ok at hdok
        rw [hitem] at hdok
        exact hdok
      rw [hds] at hdf
      simp only [depd_field_ok, if_neg hne] at hdf
      have hall := List.all_eq_true.mp hdf d hdmem
      simpa [depSatisfied, hdep] using hall
  · intro h key hk
    have h' : (keysOf s.queue).foldl (nextStep s.queue) none = none := h
    exact (hspec.1 h').2 key hk

/-- Witness for C1 at the two-task sample store: `next()` returns key 0,
so the theorem yields that key 0 passes the dependency check. -/
theorem next_returns_smallest_eligible_witness :
    _depd_ok sampleQueue.queue 0 = true :=
  ((next_returns_smallest_eligible sampleQueue).1 0 (by decide)).2.2.1

/-- C10: a record whose dict lacks the `depd` field entirely passes
`_depd_ok`, is a `next()` candidate exactly when its status is `queued`,
and rewriting its missing field into the sentinel `[-1]` does not change
the result of `next()` at all. -/
theorem missing_depd_treated_as_sentinel (s : Queue) (key : Int)
    (item : Record) (hl : lookup s.queue key = some item)
    (hd : item.depd = none) :
    _depd_ok s.queue key = true ∧
    isCandidate s.queue key = (item.status == "queued") ∧
    Queue.next
        { s with queue := setKey s.queue key { item with depd := some [-1] } }
      = Queue.next s := by
  have h1 : _depd_ok s.queue key = true := by
    unfold _depd_ok
    rw [hl]
    show depd_field_ok s.queue item.depd = true
    rw [hd]
    rfl
  refine ⟨h1, ?_, ?_⟩
  · simp [isCandidate, hl, h1, statusQueued]
  · show (keysOf (setKey s.queue key { item with depd := some [-1] })).foldl
        (nextStep (setKey s.queue key { item with depd := some [-1] })) none
      = (keysOf s.queue).foldl (nextStep s.queue) none
    rw [keysOf_setKey_of_mem s.queue key _ (mem_keysOf_of_lookup s.queue key item hl)]
    exact (foldl_nextStep_congr s.queue _ (keysOf s.queue)
      (fun j => isCandidate_setKey_sentinel s.queue key item hl hd j) none).symm

/-- Witness for C10 at a one-task store whose record has no `depd` field. -/
theorem missing_depd_treated_as_sentinel_witness :
    _depd_ok sampleQueueNoDepd.queue 3 = true :=
  (missing_depd_treated_as_sentinel sampleQueueNoDepd 3
    (sampleRec "queued" none) (by decide) (by decide)).1

/-! Sequences of `add_new`/`remove` calls, for the key-allocation claims. -/

/-- One external mutation for the allocation claim: an `add_new` call (with
the `command`/`path` entries of its argument dict) or a `remove` call. -/
inductive Op where
  | add (command path : String)
  | remove (key : Int)

/-- The key under which each `add_new` of the sequence stores its record
(the value of `self.next_key` at the moment of that call), in call order. -/
def assignedKeys : Queue → List Op → List Int
  | _, [] => []
  | s, Op.add c p :: rest =>
      s.next_key :: assignedKeys (Queue.add_new s c p).1 rest
  | s, Op.remove k :: rest => assignedKeys (Queue.remove s k).1 rest

theorem add_new_next_key (s : Queue) (c p : String) :
    (Queue.add_new s c p).1.next_key = s.next_key + 1 := rfl

theorem remove_next_key (s : Queue) (k : Int) :
    (Queue.remove s k).1.next_key = s.next_key := by
  unfold Queue.remove
  split <;> rfl

theorem assignedKeys_lb (ops : List Op) :
    ∀ (s : Queue) (k : Int), k ∈ assignedKeys s ops → s.next_key ≤ k := by
  induction ops with
  | nil => intro s k h; simp [assignedKeys] at h
  | cons op rest ih =>
      intro s k h
      cases op with
      | add c p =>
          simp only [assignedKeys, List.mem_cons] at h
          rcases h with h | h
          · omega
          · have hk := ih _ k h
            rw [add_new_next_key] at hk
            omega
      | remove key =>
          simp only [assignedKeys] at h
          have hk := ih _ k h
          rw [remove_next_key] at hk
          exact hk

theorem assignedKeys_pairwise (ops : List Op) :
    ∀ s : Queue, List.Pairwise (· < ·) (assignedKeys s ops) := by
  induction ops with
  | nil => intro s; simp [assignedKeys]
  | cons op rest ih =>
      intro s
      cases op with
      | add c p =>
          simp only [assignedKeys]
          refine List.Pairwise.cons ?_ (ih _)
          intro k hk
          have hlb := assignedKeys_lb rest _ k hk
          rw [add_new_next_key] at hlb
          omega
      | remove key =>
          simp only [assignedKeys]
          exact ih _

/-- C2: along any interleaved sequence of `add_new` and `remove` calls, the
keys assigned by the successive `add_new` calls are strictly increasing and
pairwise distinct (no key is assigned twice). -/
theorem assigned_keys_strictly_increasing (s : Queue) (ops : List Op) :
    List.Pairwise (· < ·) (assignedKeys s ops) ∧
    (assignedKeys s ops).Nodup := by
  refine ⟨assignedKeys_pairwise ops s, ?_⟩
  exact (assignedKeys_pairwise ops s).imp (fun h => ne_of_lt h)

/-- C3 (amended): `add_new` stores the record under the pre-call
`next_key`, with the given `command`/`path`, status `stashed`, empty
`returncode`/`stdout`/`stderr`/`start`/`end`, sentinel dependency list
`[-1]`; it increments `next_key` by one and persists the store.  The Python
function body has no `return` statement, so the call itself returns `None`
rather than the assigned key. -/
theorem add_new_spec (s : Queue) (command path : String) :
    lookup (Queue.add_new s command path).1.queue s.next_key
        = some (newEntry command path) ∧
    (newEntry command path).command = command ∧
    (newEntry command path).path = path ∧
    (newEntry command path).status = "stashed" ∧
    (newEntry command path).returncode = "" ∧
    (newEntry command path).stdout = "" ∧
    (newEntry command path).stderr = "" ∧
    (newEntry command path).start = "" ∧
    (newEntry command path).«end» = "" ∧
    (newEntry command path).depd = some [-1] ∧
    (Queue.add_new s command path).1.next_key = s.next_key + 1 ∧
    (Queue.add_new s command path).1.file
        = some (.valid (Queue.add_new s command path).1.queue) ∧
    (Queue.add_new s command path).2 = none := by
  refine ⟨?_, rfl, rfl, rfl, rfl, rfl, rfl, rfl, rfl, rfl, rfl, rfl, rfl⟩
  exact lookup_setKey_self s.queue s.next_key (newEntry command path)

/-- Counterexample to C3 as stated: on the empty store the assigned key is
`0` (the record is stored there), but the `add_new` call returns Python
`None`, not the assigned key. -/
theorem add_new_does_not_return_key :
    lookup (Queue.add_new ⟨[], 0, none⟩ "echo hi" "/tmp").1.queue 0
        = some (newEntry "echo hi" "/tmp") ∧
    (Queue.add_new ⟨[], 0, none⟩ "echo hi" "/tmp").2 = none ∧
    (Queue.add_new ⟨[], 0, none⟩ "echo hi" "/tmp").2 ≠ some 0 := by
  refine ⟨rfl, rfl, ?_⟩
  decide

/-- Well-formed allocator state: `next_key` lies strictly above every key
currently in the store.  `__init__` establishes this and no operation
invalidates it (see the `next_key` invariant theorem below). -/
def KeysBelowNext (s : Queue) : Prop :=
  ∀ k ∈ keysOf s.queue, k < s.next_key

/-- A finished task stored under key 0, for concrete witnesses. -/
def sampleDoneQueue : Queue :=
  ⟨[(0, sampleRec "done" (some [-1]))], 1, none⟩

/-- C4: `restart(key)` succeeds exactly when the key is present with status
`done` or `failed`; on failure the whole state is untouched; on success the
fresh key `next_key` (not previously in the store) now holds a record that
clones only `command` and `path` from the original, with status `stashed`,
empty output fields and the sentinel dependency list, while the original
record is still stored unchanged under its key. -/
theorem restart_spec (s : Queue) (key : Int) (hwf : KeysBelowNext s) :
    ((Queue.restart s key).2 = true ↔
      ∃ item, lookup s.queue key = some item ∧
        (item.status = "done" ∨ item.status = "failed")) ∧
    ((Queue.restart s key).2 = false → (Queue.restart s key).1 = s) ∧
    (∀ item, lookup s.queue key = some item →
      (item.status = "done" ∨ item.status = "failed") →
      s.next_key ∉ keysOf s.queue ∧
      lookup (Queue.restart s key).1.queue s.next_key
        = some (newEntry item.command item.path) ∧
      (newEntry item.command item.path).status = "stashed" ∧
      (newEntry item.command item.path).returncode = "" ∧
      (newEntry item.command item.path).start = "" ∧
      (newEntry item.command item.path).«end» = "" ∧
      (newEntry item.command item.path).depd = some [-1] ∧
      lookup (Queue.restart s key).1.queue key = some item) := by
  have hfresh : s.next_key ∉ keysOf s.queue := by
    intro hmem
    have := hwf s.next_key hmem
    omega
  rcases hl : lookup s.queue key with _ | item
  · have hres : Queue.restart s key = (s, false) := by
      simp only [Queue.restart, hl]
    refine ⟨?_, ?_, ?_⟩
    · rw [hres]
      constructor
      · intro h
        exact absurd h (by simp)
      · rintro ⟨item, hitem, -⟩
        exact absurd hitem (by simp)
    · intro _
      rw [hres]
    · intro item hitem
      exact absurd hitem (by simp)
  · by_cases hst : item.status ∈ (["failed", "done"] : List String)
    · have hres : Queue.restart s key
          = (Queue.write (Queue.add_new s item.command item.path).1, true) := by
        simp only [Queue.restart, hl, if_pos hst]
      refine ⟨?_, ?_, ?_⟩
      · rw [hres]
        simp only [List.mem_cons, List.not_mem_nil, or_false] at hst
        constructor
        · intro _
          exact ⟨item, rfl, by tauto⟩
        · intro _
          rfl
      · intro h
        rw [hres] at h
        exact absurd h (by simp)
      · intro item' hitem' _
        have hii : item' = item := by
          simpa using hitem'.symm
        subst hii
        have hkey_ne : key ≠ s.next_key := by
          intro hk
          exact hfresh (hk ▸ mem_keysOf_of_lookup s.queue key item' hl)
        refine ⟨hfresh, ?_, rfl, rfl, rfl, rfl, rfl, ?_⟩
        · rw [hres]
          exact lookup_setKey_self s.queue s.next_key
            (newEntry item'.command item'.path)
        · rw [hres]
          show lookup (setKey s.queue s.next_key
            (newEntry item'.command item'.path)) key = some item'
          rw [lookup_setKey_ne s.queue s.next_key _ key hkey_ne]
          exact hl
    · have hres : Queue.restart s key = (s, false) := by
        simp only [Queue.restart, hl, if_neg hst]
      refine ⟨?_, ?_, ?_⟩
      · rw [hres]
        constructor
        · intro h
          exact absurd h (by simp)
        · rintro ⟨item', hitem', hst'⟩
          have hii : item' = item := by simpa using hitem'.symm
          subst hii
          refine absurd ?_ hst
          simp only [List.mem_cons, List.not_mem_nil, or_false]
          tauto
      · intro _
        rw [hres]
      · intro item' hitem' hst'
        have hii : item' = item := by simpa using hitem'.symm
        subst hii
        refine absurd ?_ hst
        simp only [List.mem_cons, List.not_mem_nil, or_false]
        tauto

/-- Witness for C4 at a one-task store holding a `done` record under key 0:
the clone appears under the fresh key 1. -/
theorem restart_spec_witness :
    lookup (Queue.restart sampleDoneQueue 0).1.queue 1
      = some (newEntry "echo hi" "/tmp") :=
  ((restart_spec sampleDoneQueue 0
      (by
        show ∀ k ∈ keysOf sampleDoneQueue.queue, k < sampleDoneQueue.next_key
        decide)).2.2
    (sampleRec "done" (some [-1])) (by decide) (by decide)).2.1

theorem lookup_double_set (q : List (Int × Record)) (a b : Int)
    (va vb : Record) (k : Int) :
    lookup (setKey (setKey q b vb) a va) k
      = if k = a then some va else if k = b then some vb else lookup q k := by
  by_cases hka : k = a
  · subst hka
    simp [lookup_setKey_self]
  · rw [lookup_setKey_ne (setKey q b vb) a va k hka]
    by_cases hkb : k = b
    · subst hkb
      simp [lookup_setKey_self, hka]
    · rw [lookup_setKey_ne q b vb k hkb]
      simp [hka, hkb]

theorem switch_eq_of_ok (s : Queue) (a b : Int) (ra rb : Record)
    (hla : lookup s.queue a = some ra) (hlb : lookup s.queue b = some rb)
    (hok : ra.status ∈ (["queued", "stashed"] : List String)
      ∧ rb.status ∈ (["queued", "stashed"] : List String)) :
    Queue.switch s a b
      = (Queue.write { s with queue := setKey (setKey s.queue b ra) a rb },
         true) := by
  unfold Queue.switch
  rw [hla, hlb]
  exact if_pos hok

theorem switch_queue_of_ok (s : Queue) (a b : Int) (ra rb : Record)
    (hla : lookup s.queue a = some ra) (hlb : lookup s.queue b = some rb)
    (hok : ra.status ∈ (["queued", "stashed"] : List String)
      ∧ rb.status ∈ (["queued", "stashed"] : List String)) :
    (Queue.switch s a b).1.queue = setKey (setKey s.queue b ra) a rb := by
  rw [switch_eq_of_ok s a b ra rb hla hlb hok]
  rfl

/-- C5: `switch(a, b)` succeeds exactly when both keys are present with
status `queued` or `stashed`; on failure the whole state is unchanged; on
success the two records are exactly exchanged and every other key is
untouched; and running `switch(a, b)` twice in a row always restores the
original key-to-record assignment. -/
theorem switch_spec (s : Queue) (a b : Int) :
    ((Queue.switch s a b).2 = true ↔
      ∃ ra rb, lookup s.queue a = some ra ∧ lookup s.queue b = some rb ∧
        (ra.status = "queued" ∨ ra.status = "stashed") ∧
        (rb.status = "queued" ∨ rb.status = "stashed")) ∧
    ((Queue.switch s a b).2 = false → (Queue.switch s a b).1 = s) ∧
    ((Queue.switch s a b).2 = true →
      lookup (Queue.switch s a b).1.queue a = lookup s.queue b ∧
      lookup (Queue.switch s a b).1.queue b = lookup s.queue a ∧
      (∀ k, k ≠ a → k ≠ b →
        lookup (Queue.switch s a b).1.queue k = lookup s.queue k)) ∧
    (∀ k, lookup (Queue.switch (Queue.switch s a b).1 a b).1.queue k
        = lookup s.queue k) := by
  rcases hla : lookup s.queue a with _ | r1
  · have hsw : Queue.switch s a b = (s, false) := by
      unfold Queue.switch
      rw [hla]
    refine ⟨?_, ?_, ?_, ?_⟩
    · rw [hsw]
      constructor
      · intro h
        exact absurd h (by simp)
      · rintro ⟨ra, rb, hra, -, -, -⟩
        exact absurd hra (by simp)
    · intro _
      rw [hsw]
    · intro h
      rw [hsw] at h
      exact absurd h (by simp)
    · intro k
      simp [hsw]
  · rcases hlb : lookup s.queue b with _ | r2
    · have hsw : Queue.switch s a b = (s, false) := by
        unfold Queue.switch
        rw [hla, hlb]
      refine ⟨?_, ?_, ?_, ?_⟩
      · rw [hsw]
        constructor
        · intro h
          exact absurd h (by simp)
        · rintro ⟨ra, rb, -, hrb, -, -⟩
          exact absurd hrb (by simp)
      · intro _
        rw [hsw]
      · intro h
        rw [hsw] at h
        exact absurd h (by simp)
      · intro k
        simp [hsw]
    · by_cases hok : r1.status ∈ (["queued", "stashed"] : List String)
          ∧ r2.status ∈ (["queued", "stashed"] : List String)
      · have hsw := switch_eq_of_ok s a b r1 r2 hla hlb hok
        have hq1 := switch_queue_of_ok s a b r1 r2 hla hlb hok
        have hs1 : r1.status = "queued" ∨ r1.status = "stashed" := by
          simpa using hok.1
        have hs2 : r2.status = "queued" ∨ r2.status = "stashed" := by
          simpa using hok.2
        refine ⟨?_, ?_, ?_, ?_⟩
        · constructor
          · intro _
            exact ⟨r1, r2, rfl, rfl, hs1, hs2⟩
          · intro _
            rw [hsw]
        · intro h
          rw [hsw] at h
          exact absurd h (by simp)
        · intro _
          refine ⟨?_, ?_, ?_⟩
          · rw [hq1, lookup_double_set, if_pos rfl]
          · rw [hq1, lookup_double_set]
            by_cases hba : b = a
            · rw [if_pos hba]
              rw [hba, hla] at hlb
              exact hlb.symm
            · rw [if_neg hba, if_pos rfl]
          · intro k hka hkb
            rw [hq1, lookup_double_set, if_neg hka, if_neg hkb]
        · intro k
          have hXa : lookup (Queue.switch s a b).1.queue a = some r2 := by
            rw [hq1, lookup_double_set, if_pos rfl]
          have hXb : lookup (Queue.switch s a b).1.queue b
              = some (if b = a then r2 else r1) := by
            rw [hq1, lookup_double_set]
            by_cases hba : b = a
            · rw [if_pos hba, if_pos hba]
            · rw [if_neg hba, if_pos rfl, if_neg hba]
          have hok2 : r2.status ∈ (["queued", "stashed"] : List String)
              ∧ (if b = a then r2 else r1).status
                  ∈ (["queued", "stashed"] : List String) := by
            refine ⟨hok.2, ?_⟩
            by_cases hba : b = a
            · rw [if_pos hba]
              exact hok.2
            · rw [if_neg hba]
              exact hok.1
          have hq2 := switch_queue_of_ok (Queue.switch s a b).1 a b
            r2 (if b = a then r2 else r1) hXa hXb hok2
          rw [hq2, lookup_double_set]
          by_cases hka : k = a
          · rw [if_pos hka, hka, hla]
            by_cases hba : b = a
            · rw [if_pos hba]
              rw [hba, hla] at hlb
              exact hlb.symm
            · rw [if_neg hba]
          · rw [if_neg hka]
            by_cases hkb : k = b
            · rw [if_pos hkb, hkb, hlb]
            · rw [if_neg hkb, hq1, lookup_double_set, if_neg hka, if_neg hkb]
      · have hsw : Queue.switch s a b = (s, false) := by
          unfold Queue.switch
          rw [hla, hlb]
          exact if_neg hok
        refine ⟨?_, ?_, ?_, ?_⟩
        · rw [hsw]
          constructor
          · intro h
            exact absurd h (by simp)
          · rintro ⟨ra, rb, hra, hrb, hsta, hstb⟩
            have h1 : ra = r1 := by simpa using hra.symm
            have h2 : rb = r2 := by simpa using hrb.symm
            subst h1
            subst h2
            refine absurd ⟨?_, ?_⟩ hok
            · simp only [List.mem_cons, List.not_mem_nil, or_false]
              tauto
            · simp only [List.mem_cons, List.not_mem_nil, or_false]
              tauto
        · intro _
          rw [hsw]
        · intro h
          rw [hsw] at h
          exact absurd h (by simp)
        · intro k
          simp [hsw]

/-- Witness for C5 at the two-task sample store: both tasks are `queued`,
the switch succeeds, and key 0 afterwards holds what key 1 held. -/
theorem switch_spec_witness :
    lookup (Queue.switch sampleQueue 0 1).1.queue 0
      = lookup sampleQueue.queue 1 :=
  ((switch_spec sampleQueue 0 1).2.2.1 (by decide)).1

/-- C6: `read` (the load path) returns the empty store when the snapshot
file is absent, and when `pickle.load` fails on an existing file it removes
the file, prints the warning, returns the empty store and does not let the
exception escape (`Queue.read` is a total function: the `except Exception`
handler swallows the failure). -/
theorem read_recovers_from_corruption :
    Queue.read none = ⟨[], none, false⟩ ∧
    ∀ content err, pickle_load content = .error err →
      Queue.read (some content) = ⟨[], none, true⟩ := by
  refine ⟨rfl, ?_⟩
  intro content err h
  cases content with
  | valid q => exact absurd h (by simp [pickle_load])
  | corrupt => rfl

/-- Witness for C6: the corrupt snapshot file is deleted (`none`), the
warning flag is set, and the resulting store is empty. -/
theorem read_recovers_from_corruption_witness :
    Queue.read (some .corrupt) = ⟨[], none, true⟩ :=
  read_recovers_from_corruption.2 .corrupt "UnpicklingError" rfl

/-- Counterexample to C7 as stated: an I/O failure at
`open(queue_path, 'wb+')` happens outside the `try`/`except` of
`Queue.write`, so the exception propagates to the caller instead of being
turned into a warning. -/
theorem write_raises_on_open_failure :
    Queue.write_model ⟨[], 0, none⟩ true false = .error "OSError" := rfl

/-- C7 (amended): provided the snapshot file can be opened, `write` never
raises: a `pickle.dump` failure is surfaced only as the warning flag, the
in-memory store (`queue` and `next_key`) is left unchanged, and only the
on-disk copy is affected.  A failure of the `open` call itself, sitting
outside the `try`, still raises. -/
theorem write_warns_only_after_open (s : Queue) (dumpFails : Bool) :
    ∃ s' warned, Queue.write_model s false dumpFails = .ok (s', warned) ∧
      s'.queue = s.queue ∧ s'.next_key = s.next_key ∧ warned = dumpFails := by
  cases dumpFails with
  | false => exact ⟨_, _, rfl, rfl, rfl, rfl⟩
  | true => exact ⟨_, _, rfl, rfl, rfl, rfl⟩

/-- A store exercising every branch of `clean`: one in-flight record and
one finished record. -/
def sampleMixedQueue : Queue :=
  ⟨[(0, sampleRec "running" (some [-1])), (1, sampleRec "done" (some [-1]))],
   2, none⟩

/-- C8: `clean()` rewrites every record whose status is `paused`, `running`,
`stopping` or `killing` to status `queued` with `start` and `end` cleared,
leaves every other record (and every other field, and `next_key`) unchanged,
keeps the key set, and does not persist (the snapshot file is untouched). -/
theorem clean_spec (s : Queue) :
    (Queue.clean s).file = s.file ∧
    (Queue.clean s).next_key = s.next_key ∧
    keysOf (Queue.clean s).queue = keysOf s.queue ∧
    (∀ key item, lookup s.queue key = some item →
      (item.status ∈ (["paused", "running", "stopping", "killing"] :
          List String) →
        lookup (Queue.clean s).queue key
          = some { item with status := "queued", start := "", «end» := "" }) ∧
      (item.status ∉ (["paused", "running", "stopping", "killing"] :
          List String) →
        lookup (Queue.clean s).queue key = some item)) := by
  refine ⟨rfl, rfl, ?_, ?_⟩
  · show keysOf (s.queue.map fun kr => (kr.1, cleanRecord kr.2)) = keysOf s.queue
    simp [keysOf]
  · intro key item hitem
    have hmap : lookup (Queue.clean s).queue key = (lookup s.queue key).map cleanRecord := by
      show lookup (s.queue.map fun kr => (kr.1, cleanRecord kr.2)) key
        = (lookup s.queue key).map cleanRecord
      exact lookup_map s.queue cleanRecord key
    rw [hmap, hitem]
    constructor
    · intro hst
      simp [cleanRecord, hst]
    · intro hst
      simp [cleanRecord, hst]

/-- Witness for C8 at a two-task store: the `running` record is demoted to
`queued` while the `done` record is returned unchanged. -/
theorem clean_spec_witness :
    lookup (Queue.clean sampleMixedQueue).queue 0
      = some { sampleRec "running" (some [-1]) with
          status := "queued", start := "", «end» := "" } :=
  ((clean_spec sampleMixedQueue).2.2.2 0 (sampleRec "running" (some [-1]))
    (by decide)).1 (by decide)

/-! Bounds for `maxKey` and key-set lemmas for the allocator invariant. -/

theorem foldl_max_le_seed (l : List (Int × Record)) (seed : Int) :
    seed ≤ l.foldl (fun m kr => max m kr.1) seed := by
  induction l generalizing seed with
  | nil => simp
  | cons kr rest ih =>
      simp only [List.foldl_cons]
      exact le_trans (le_max_left seed kr.1) (ih (max seed kr.1))

theorem le_foldl_max_of_mem (l : List (Int × Record)) :
    ∀ (seed k : Int), k ∈ keysOf l →
      k ≤ l.foldl (fun m kr => max m kr.1) seed := by
  induction l with
  | nil => intro seed k h; simp [keysOf_nil] at h
  | cons kr rest ih =>
      intro seed k h
      simp only [keysOf_cons, List.mem_cons] at h
      simp only [List.foldl_cons]
      rcases h with h | h
      · have h1 : k ≤ max seed kr.1 := by
          rw [h]
          exact le_max_right _ _
        exact le_trans h1 (foldl_max_le_seed rest _)
      · exact ih _ k h

theorem le_maxKey (q : List (Int × Record)) :
    ∀ k ∈ keysOf q, k ≤ maxKey q := by
  cases q with
  | nil => intro k h; simp [keysOf_nil] at h
  | cons kr rest =>
      obtain ⟨k0, r0⟩ := kr
      intro k h
      simp only [keysOf_cons, List.mem_cons] at h
      show k ≤ rest.foldl (fun m kr => max m kr.1) k0
      rcases h with h | h
      · rw [h]
        exact foldl_max_le_seed rest k0
      · exact le_foldl_max_of_mem rest k0 k h

theorem mem_keysOf_filter (q : List (Int × Record))
    (pred : Int × Record → Bool) (k : Int)
    (h : k ∈ keysOf (q.filter pred)) : k ∈ keysOf q := by
  simp only [keysOf, List.mem_map] at h ⊢
  obtain ⟨kr, hkr, hfst⟩ := h
  exact ⟨kr, List.mem_of_mem_filter hkr, hfst⟩

theorem keysOf_clean (s : Queue) :
    keysOf (Queue.clean s).queue = keysOf s.queue := by
  show keysOf (s.queue.map fun kr => (kr.1, cleanRecord kr.2)) = keysOf s.queue
  simp [keysOf]

/-- Counterexample to C9 as stated: starting from the empty store, one
`add_new` assigns key 0 and raises `next_key` to 1, but a `reset` then sets
`next_key` back to 0 — so `next_key` is not "only ever incremented" and no
longer exceeds the key 0 that was already assigned. -/
theorem reset_decreases_next_key :
    (Queue.add_new ⟨[], 0, none⟩ "echo hi" "/tmp").1.next_key = 1 ∧
    lookup (Queue.add_new ⟨[], 0, none⟩ "echo hi" "/tmp").1.queue 0
      = some (newEntry "echo hi" "/tmp") ∧
    (Queue.reset (Queue.add_new ⟨[], 0, none⟩ "echo hi" "/tmp").1).next_key
      = 0 :=
  ⟨rfl, rfl, rfl⟩

/-- C9 (amended): `next_key` strictly dominates every key currently in the
store, and this is preserved by every operation; `__init__` recomputes it
as `max(keys) + 1` (or 0 on an empty store) and establishes the bound;
`add_new` increments it by one and `remove`/`switch`/`clean`/`clear` leave
it unchanged (`restart` never decreases it) — but `reset` sets it back to
0 together with emptying the store, so keys may be reassigned after a
reset. -/
theorem next_key_invariant (s : Queue) (c p : String) (k a b : Int)
    (f : Option FileContent) (hwf : KeysBelowNext s) :
    KeysBelowNext (Queue.add_new s c p).1 ∧
    (Queue.add_new s c p).1.next_key = s.next_key + 1 ∧
    KeysBelowNext (Queue.remove s k).1 ∧
    (Queue.remove s k).1.next_key = s.next_key ∧
    KeysBelowNext (Queue.restart s k).1 ∧
    s.next_key ≤ (Queue.restart s k).1.next_key ∧
    KeysBelowNext (Queue.switch s a b).1 ∧
    (Queue.switch s a b).1.next_key = s.next_key ∧
    KeysBelowNext (Queue.clean s) ∧
    (Queue.clean s).next_key = s.next_key ∧
    KeysBelowNext (Queue.clear s) ∧
    (Queue.clear s).next_key = s.next_key ∧
    KeysBelowNext (Queue.reset s) ∧
    (Queue.reset s).next_key = 0 ∧
    KeysBelowNext (Queue.init f) ∧
    (Queue.init f).next_key
      = (if (Queue.init f).queue = [] then 0
         else maxKey (Queue.init f).queue + 1) := by
  have hadd : KeysBelowNext (Queue.add_new s c p).1 := by
    intro k' hk'
    have hq : (Queue.add_new s c p).1.queue
        = setKey s.queue s.next_key (newEntry c p) := rfl
    rw [hq] at hk'
    rcases mem_keysOf_setKey s.queue s.next_key (newEntry c p) k' hk'
      with h | h
    · have := hwf k' h
      rw [add_new_next_key]
      omega
    · rw [add_new_next_key]
      omega
  refine ⟨hadd, rfl, ?_, remove_next_key s k, ?_, ?_, ?_, ?_, ?_, rfl, ?_,
    rfl, ?_, rfl, ?_, rfl⟩
  · intro k' hk'
    rw [remove_next_key]
    by_cases hsome : (lookup s.queue k).isSome
    · have hq : (Queue.remove s k).1.queue = eraseKey s.queue k := by
        simp [Queue.remove, hsome, Queue.write]
      rw [hq] at hk'
      exact hwf k' (mem_keysOf_eraseKey s.queue k k' hk')
    · have hq : (Queue.remove s k).1 = s := by
        simp [Queue.remove, hsome]
      rw [hq] at hk'
      exact hwf k' hk'
  · rcases hl : lookup s.queue k with _ | item
    · have hres : Queue.restart s k = (s, false) := by
        simp only [Queue.restart, hl]
      rw [hres]
      exact hwf
    · by_cases hst : item.status ∈ (["failed", "done"] : List String)
      · have hres : Queue.restart s k
            = (Queue.write (Queue.add_new s item.command item.path).1,
               true) := by
          simp only [Queue.restart, hl, if_pos hst]
        rw [hres]
        intro k' hk'
        have hq : (Queue.write (Queue.add_new s item.command item.path).1).queue
            = setKey s.queue s.next_key (newEntry item.command item.path) :=
          rfl
        rw [hq] at hk'
        rcases mem_keysOf_setKey s.queue s.next_key _ k' hk' with h | h
        · have := hwf k' h
          show k' < s.next_key + 1
          omega
        · show k' < s.next_key + 1
          omega
      · have hres : Queue.restart s k = (s, false) := by
          simp only [Queue.restart, hl, if_neg hst]
        rw [hres]
        exact hwf
  · rcases hl : lookup s.queue k with _ | item
    · have hres : Queue.restart s k = (s, false) := by
        simp only [Queue.restart, hl]
      rw [hres]
    · by_cases hst : item.status ∈ (["failed", "done"] : List String)
      · have hres : Queue.restart s k
            = (Queue.write (Queue.add_new s item.command item.path).1,
               true) := by
          simp only [Queue.restart, hl, if_pos hst]
        rw [hres]
        show s.next_key ≤ s.next_key + 1
        omega
      · have hres : Queue.restart s k = (s, false) := by
          simp only [Queue.restart, hl, if_neg hst]
        rw [hres]
  · rcases hla : lookup s.queue a with _ | r1
    · have hsw : Queue.switch s a b = (s, false) := by
        unfold Queue.switch
        rw [hla]
      rw [hsw]
      exact hwf
    · rcases hlb : lookup s.queue b with _ | r2
      · have hsw : Queue.switch s a b = (s, false) := by
          unfold Queue.switch
          rw [hla, hlb]
        rw [hsw]
        exact hwf
      · by_cases hok : r1.status ∈ (["queued", "stashed"] : List String)
            ∧ r2.status ∈ (["queued", "stashed"] : List String)
        · have hq := switch_queue_of_ok s a b r1 r2 hla hlb hok
          have hnk : (Queue.switch s a b).1.next_key = s.next_key := by
            rw [switch_eq_of_ok s a b r1 r2 hla hlb hok]
            rfl
          intro k' hk'
          rw [hnk]
          rw [hq] at hk'
          rcases mem_keysOf_setKey _ a r2 k' hk' with h | h
          · rcases mem_keysOf_setKey _ b r1 k' h with h' | h'
            · exact hwf k' h'
            · rw [h']
              exact hwf b (mem_keysOf_of_lookup s.queue b r2 hlb)
          · rw [h]
            exact hwf a (mem_keysOf_of_lookup s.queue a r1 hla)
        · have hsw : Queue.switch s a b = (s, false) := by
            unfold Queue.switch
            rw [hla, hlb]
            exact if_neg hok
          rw [hsw]
          exact hwf
  · rcases hla : lookup s.queue a with _ | r1
    · have hsw : Queue.switch s a b = (s, false) := by
        unfold Queue.switch
        rw [hla]
      rw [hsw]
    · rcases hlb : lookup s.queue b with _ | r2
      · have hsw : Queue.switch s a b = (s, false) := by
          unfold Queue.switch
          rw [hla, hlb]
        rw [hsw]
      · by_cases hok : r1.status ∈ (["queued", "stashed"] : List String)
            ∧ r2.status ∈ (["queued", "stashed"] : List String)
        · rw [switch_eq_of_ok s a b r1 r2 hla hlb hok]
          rfl
        · have hsw : Queue.switch s a b = (s, false) := by
            unfold Queue.switch
            rw [hla, hlb]
            exact if_neg hok
          rw [hsw]
  · intro k' hk'
    rw [keysOf_clean] at hk'
    exact hwf k' hk'
  · intro k' hk'
    have hq : (Queue.clear s).queue
        = s.queue.filter fun kr =>
            !(kr.2.status == "done" || kr.2.status == "failed") := rfl
    rw [hq] at hk'
    exact hwf k' (mem_keysOf_filter s.queue _ k' hk')
  · intro k' hk'
    simp [Queue.reset, Queue.write, keysOf_nil] at hk'
  · intro k' hk'
    have hq : (Queue.init f).queue
        = (Queue.read f).queue.map fun kr => (kr.1, cleanRecord kr.2) := rfl
    by_cases hq0 : (Queue.init f).queue = []
    · rw [hq0] at hk'
      simp [keysOf_nil] at hk'
    · have hnk : (Queue.init f).next_key = maxKey (Queue.init f).queue + 1 :=
        by
        have : (Queue.init f).next_key
            = (if (Queue.init f).queue = [] then 0
               else maxKey (Queue.init f).queue + 1) := rfl
        rw [this, if_neg hq0]
      rw [hnk]
      have := le_maxKey (Queue.init f).queue k' hk'
      omega

/-- Witness for C9 (amended) at the two-task sample store: `reset` drives
`next_key` to 0. -/
theorem next_key_invariant_witness :
    (Queue.reset sampleQueue).next_key = 0 :=
  (next_key_invariant sampleQueue "echo hi" "/tmp" 0 0 1 none
    (by
      show ∀ j ∈ keysOf sampleQueue.queue, j < sampleQueue.next_key
      decide)).2.2.2.2.2.2.2.2.2.2.2.2.2.1

end Pueue
